import Mathlib

/-!
Verification of the investment-tracker repository.

Part 1 models the FIFO cost-basis ledger. The ledger variant of the
application is not among the source files available here (only the
Streamlit variant `app.py` is), so the ledger is modelled from the
specification text (§3, §4.1, §7 of the design spec): transactions,
lots, FIFO consumption, the `record` / `snapshot` operations and the
error policy.

Part 2 models, directly from `src/app.py`, the price-fetching routine
`fetch_current_prices`, the holdings-table computation (current value,
totals with NaN skipped), and the projection-weight computation.
Python floating NaN is embedded as `Option.none`; prices and money are
rationals.
-/

namespace Ledger

/-- Modelled from the spec: transaction kind, §3 "kind: BUY | SELL". -/
inductive TxKind where
  | BUY
  | SELL
deriving DecidableEq, Repr

/-- Modelled from the spec: §3 Transaction — symbol, kind, positive integer
units, positive decimal price per unit.  Positivity is enforced at `record`
time (§7 `InvalidTransaction`), so the fields themselves are unrestricted. -/
structure Transaction where
  symbol : String
  kind : TxKind
  units : Int
  pricePerUnit : ℚ
deriving DecidableEq, Repr

/-- Modelled from the spec: §3 Lot — `units_remaining` and the immutable
BUY price that created the lot. -/
structure Lot where
  unitsRemaining : Int
  pricePerUnit : ℚ
deriving DecidableEq, Repr

/-- Modelled from the spec: §4.1 Effect (SELL) — consume `r` units from the
lot list in FIFO order: for each lot in creation order while the remainder
is positive, `consumed = min lot.units_remaining remaining`. -/
def consumeLots : List Lot → Int → List Lot
  | [], _ => []
  | lot :: rest, r =>
    if r ≤ 0 then lot :: rest
    else
      let consumed := if lot.unitsRemaining ≤ r then lot.unitsRemaining else r
      { lot with unitsRemaining := lot.unitsRemaining - consumed } ::
        consumeLots rest (r - consumed)

/-- Modelled from the spec: effect of one transaction on a symbol's lot
list — BUY appends a new open lot (§4.1 Effect (BUY)); SELL consumes in
FIFO order and prunes exhausted lots (§3: pruning zero-remainder lots is
acceptable, and the §8 FIFO test states the pruned result). -/
def applyTx (lots : List Lot) (tx : Transaction) : List Lot :=
  match tx.kind with
  | .BUY => lots ++ [⟨tx.units, tx.pricePerUnit⟩]
  | .SELL => (consumeLots lots tx.units).filter (fun l => decide (l.unitsRemaining ≠ 0))

/-- Modelled from the spec: the sub-log of transactions for one symbol. -/
def txsFor (log : List Transaction) (sym : String) : List Transaction :=
  log.filter (fun tx => decide (tx.symbol = sym))

/-- Modelled from the spec: §3 Holding `open_lots` — derived by folding the
symbol's transactions over the lot list, oldest first (§4 lifecycle:
holdings are recomputed by folding the full transaction log). -/
def openLots (log : List Transaction) (sym : String) : List Lot :=
  (txsFor log sym).foldl applyTx []

/-- Modelled from the spec: §3 Holding `units == sum(lot.units_remaining)`. -/
def heldUnits (log : List Transaction) (sym : String) : Int :=
  ((openLots log sym).map (fun l => l.unitsRemaining)).sum

/-- Modelled from the spec: §3 Holding `total_invested`, the sum of
`units_remaining * price_per_unit` over open lots. -/
def totalInvested (log : List Transaction) (sym : String) : ℚ :=
  ((openLots log sym).map (fun l => (l.unitsRemaining : ℚ) * l.pricePerUnit)).sum

/-- Modelled from the spec: §3 Holding `average_cost` —
`total_invested / units` when `units > 0`, else 0. -/
def averageCost (log : List Transaction) (sym : String) : ℚ :=
  if 0 < heldUnits log sym then totalInvested log sym / (heldUnits log sym : ℚ) else 0

/-- Modelled from the spec: §7 error kinds raised by `record`. -/
inductive LedgerError where
  | InvalidTransaction
  | InsufficientUnits
deriving DecidableEq, Repr

/-- Modelled from the spec: §4.1 `record` with the §7 propagation policy —
non-positive units or price is rejected as `InvalidTransaction` before
appending; a SELL exceeding the currently held units is rejected as
`InsufficientUnits` (§4.1 policy (a), §7); rejections return the log
unchanged (all-or-nothing). -/
def record (log : List Transaction) (tx : Transaction) :
    Option LedgerError × List Transaction :=
  if tx.units ≤ 0 ∨ tx.pricePerUnit ≤ 0 then
    (some .InvalidTransaction, log)
  else
    match tx.kind with
    | .BUY => (none, log ++ [tx])
    | .SELL =>
      if heldUnits log tx.symbol < tx.units then
        (some .InsufficientUnits, log)
      else
        (none, log ++ [tx])

/-- Modelled from the spec: the distinct symbols appearing in the log. -/
def symbols (log : List Transaction) : List String :=
  (log.map (fun tx => tx.symbol)).dedup

/-- Modelled from the spec: §6 snapshot output per symbol — units, average
cost, current price (`none` when the oracle fails, §4.1 `snapshot`), and
current value priced by the oracle. -/
structure HoldingView where
  units : Int
  averageCost : ℚ
  currentPrice : Option ℚ
  currentValue : Option ℚ
deriving DecidableEq, Repr

/-- Modelled from the spec: price one symbol's holding via the oracle. -/
def snapshotSym (log : List Transaction) (oracle : String → Option ℚ)
    (sym : String) : HoldingView :=
  { units := heldUnits log sym
    averageCost := averageCost log sym
    currentPrice := oracle sym
    currentValue := (oracle sym).map (fun p => (heldUnits log sym : ℚ) * p) }

/-- Modelled from the spec: §4.1 `snapshot` — fold the transaction log into
per-symbol holdings and price each via the oracle; a per-symbol lookup
failure never aborts the snapshot. -/
def snapshot (log : List Transaction) (oracle : String → Option ℚ) :
    List (String × HoldingView) :=
  (symbols log).map (fun s => (s, snapshotSym log oracle s))

/-- Modelled from the spec: `snapshot` as a state-passing operation
returning the produced aggregate together with the resulting ledger
state (§4.1: `snapshot` reads but does not mutate the log). -/
def snapshotS (log : List Transaction) (oracle : String → Option ℚ) :
    List (String × HoldingView) × List Transaction :=
  (snapshot log oracle, log)

/-- Modelled from the spec: ledger states reachable from the empty log by
accepted `record` operations (§4 lifecycle). -/
inductive Reachable : List Transaction → Prop where
  | nil : Reachable []
  | step (log : List Transaction) (tx : Transaction) (log' : List Transaction) :
      Reachable log → record log tx = (none, log') → Reachable log'

/-- A successful `record` implies the transaction was valid and the new log
is the old log with the transaction appended. -/
lemma record_ok (log : List Transaction) (tx : Transaction)
    (log' : List Transaction) (h : record log tx = (none, log')) :
    0 < tx.units ∧ 0 < tx.pricePerUnit ∧ log' = log ++ [tx] := by
  unfold record at h
  by_cases hv : tx.units ≤ 0 ∨ tx.pricePerUnit ≤ 0
  · rw [if_pos hv] at h
    simp at h
  · rw [if_neg hv] at h
    push_neg at hv
    refine ⟨lt_of_not_le (fun hle => absurd hle (not_le.mpr hv.1)),
      lt_of_not_le (fun hle => absurd hle (not_le.mpr hv.2)), ?_⟩
    cases hk : tx.kind
    · rw [hk] at h
      simpa using h.symm
    · rw [hk] at h
      by_cases hs : heldUnits log tx.symbol < tx.units
      · rw [if_pos hs] at h
        simp at h
      · rw [if_neg hs] at h
        simpa using h.symm

/-- Appending one transaction only changes the lot list of its own symbol,
by one `applyTx` step. -/
lemma openLots_append (log : List Transaction) (tx : Transaction)
    (sym : String) :
    openLots (log ++ [tx]) sym =
      if tx.symbol = sym then applyTx (openLots log sym) tx
      else openLots log sym := by
  unfold openLots txsFor
  rw [List.filter_append, List.foldl_append]
  by_cases h : tx.symbol = sym
  · simp [h]
  · simp [h]

/-- Consuming zero units leaves the lot list unchanged. -/
lemma consumeLots_zero (lots : List Lot) : consumeLots lots 0 = lots := by
  cases lots <;> simp [consumeLots]

/-- FIFO consumption preserves non-negative remainders and positive lot
prices. -/
lemma consumeLots_good (lots : List Lot) (r : Int)
    (h : ∀ l ∈ lots, 0 ≤ l.unitsRemaining ∧ 0 < l.pricePerUnit) :
    ∀ l ∈ consumeLots lots r, 0 ≤ l.unitsRemaining ∧ 0 < l.pricePerUnit := by
  induction lots generalizing r with
  | nil =>
    intro l hl
    simp [consumeLots] at hl
  | cons lot rest ih =>
    intro l hl
    rw [consumeLots] at hl
    by_cases hr : r ≤ 0
    · rw [if_pos hr] at hl
      exact h l hl
    · rw [if_neg hr] at hl
      rcases List.mem_cons.mp hl with h1 | h2
      · subst h1
        refine ⟨?_, (h lot (List.mem_cons_self _ _)).2⟩
        have hn := (h lot (List.mem_cons_self _ _)).1
        dsimp only
        split <;> omega
      · exact ih _ (fun x hx => h x (List.mem_cons_of_mem _ hx)) l h2

/-- One transaction step preserves the lot invariants. -/
lemma applyTx_good (lots : List Lot) (tx : Transaction)
    (hu : 0 < tx.units) (hp : 0 < tx.pricePerUnit)
    (h : ∀ l ∈ lots, 0 ≤ l.unitsRemaining ∧ 0 < l.pricePerUnit) :
    ∀ l ∈ applyTx lots tx, 0 ≤ l.unitsRemaining ∧ 0 < l.pricePerUnit := by
  intro l hl
  cases hk : tx.kind
  · rw [applyTx, hk] at hl
    rcases List.mem_append.mp hl with h1 | h2
    · exact h l h1
    · simp at h2
      subst h2
      exact ⟨le_of_lt hu, hp⟩
  · rw [applyTx, hk] at hl
    exact consumeLots_good lots tx.units h l (List.mem_filter.mp hl).1

/-- Every reachable ledger state has only lots with non-negative remainders
and positive prices. -/
lemma reachable_good (log : List Transaction) (h : Reachable log) :
    ∀ sym, ∀ l ∈ openLots log sym, 0 ≤ l.unitsRemaining ∧ 0 < l.pricePerUnit := by
  induction h with
  | nil =>
    intro sym l hl
    simp [openLots, txsFor] at hl
  | step log tx log' hr hrec ih =>
    intro sym l hl
    obtain ⟨hu, hp, hlog⟩ := record_ok log tx log' hrec
    subst hlog
    rw [openLots_append] at hl
    by_cases hs : tx.symbol = sym
    · rw [if_pos hs] at hl
      exact applyTx_good _ tx hu hp (ih sym) l hl
    · rw [if_neg hs] at hl
      exact ih sym l hl

/-- In a reachable state the held unit count of every symbol is
non-negative. -/
lemma heldUnits_nonneg (log : List Transaction) (h : Reachable log)
    (sym : String) : 0 ≤ heldUnits log sym := by
  apply List.sum_nonneg
  intro x hx
  obtain ⟨l, hl, hlx⟩ := List.mem_map.mp hx
  exact hlx ▸ (reachable_good log h sym l hl).1

/-- In a reachable state the total invested amount of every symbol is
non-negative. -/
lemma totalInvested_nonneg (log : List Transaction) (h : Reachable log)
    (sym : String) : 0 ≤ totalInvested log sym := by
  apply List.sum_nonneg
  intro x hx
  obtain ⟨l, hl, hlx⟩ := List.mem_map.mp hx
  obtain ⟨h1, h2⟩ := reachable_good log h sym l hl
  subst hlx
  exact mul_nonneg (by exact_mod_cast h1) (le_of_lt h2)

/-- Modelled from the spec: the §8 FIFO test log — BUY 10@$10, BUY 10@$20,
then SELL 15, all accepted by `record` from the empty log. -/
def fifoLog : List Transaction :=
  (record (record (record [] ⟨"A", .BUY, 10, 10⟩).2
    ⟨"A", .BUY, 10, 20⟩).2 ⟨"A", .SELL, 15, 30⟩).2

/-- Modelled from the spec: the §8 full-liquidation log — BUY 10@$10 then
SELL 10@$10, accepted by `record` from the empty log. -/
def liqLog : List Transaction :=
  (record (record [] ⟨"B", .BUY, 10, 10⟩).2 ⟨"B", .SELL, 10, 10⟩).2

/-- Folding BUY-only transactions just appends one lot per BUY. -/
lemma foldl_applyTx_buys (l : List Transaction) :
    ∀ init : List Lot, (∀ tx ∈ l, tx.kind = .BUY) →
      l.foldl applyTx init =
        init ++ l.map (fun tx => (⟨tx.units, tx.pricePerUnit⟩ : Lot)) := by
  induction l with
  | nil =>
    intro init _
    simp
  | cons t rest ih =>
    intro init hb
    rw [List.foldl_cons, List.map_cons]
    have hk : t.kind = .BUY := hb t (List.mem_cons_self _ _)
    have hstep : applyTx init t = init ++ [(⟨t.units, t.pricePerUnit⟩ : Lot)] := by
      simp [applyTx, hk]
    rw [hstep, ih _ (fun x hx => hb x (List.mem_cons_of_mem _ hx))]
    simp

/-- In a BUY-only log every symbol's lot list is one lot per BUY, in
order. -/
lemma openLots_buys (log : List Transaction) (sym : String)
    (hb : ∀ tx ∈ log, tx.kind = .BUY) :
    openLots log sym =
      (txsFor log sym).map (fun tx => (⟨tx.units, tx.pricePerUnit⟩ : Lot)) := by
  unfold openLots
  rw [foldl_applyTx_buys (txsFor log sym) []
    (fun x hx => hb x (List.mem_filter.mp hx).1)]
  simp

end Ledger

namespace App

/-!
Model of `src/app.py`.  A Python float that may be NaN is embedded as
`Option ℚ`, with `none` playing the role of NaN; `Except Unit` models a
call that may raise an exception.
-/

/-- From `src/app.py` (`fetch_current_prices`, lines 41-55): resolve one
ticker's price.  `history t` models `tk.tickers[t].history(...)` (its list
of Close values; `Except.error` = the call raised); `info t` models
`float(yf.Ticker(t).info.get('regularMarketPrice', np.nan))` (`ok none` =
missing key, i.e. NaN; `Except.error` = the access or conversion raised).
The outer `try` takes the last Close if the history is non-empty, else
falls back to `info`; any exception in the `try` body is caught and `info`
is consulted again, a second failure yielding NaN. -/
def lookupPrice (history : String → Except Unit (List ℚ))
    (info : String → Except Unit (Option ℚ)) (t : String) : Option ℚ :=
  let fallback : Option ℚ :=
    match info t with
    | .ok r => r
    | .error _ => none
  match history t with
  | .ok closes =>
    match closes.getLast? with
    | some c => some c
    | none =>
      match info t with
      | .ok r => r
      | .error _ => fallback
  | .error _ => fallback

/-- From `src/app.py` lines 36-56: `fetch_current_prices` builds a dict
with one entry per requested ticker, never raising. -/
def fetchCurrentPrices (history : String → Except Unit (List ℚ))
    (info : String → Except Unit (Option ℚ)) (tickers : List String) :
    List (String × Option ℚ) :=
  tickers.map (fun t => (t, lookupPrice history info t))

/-- From `src/app.py` lines 81-93: one row of the editable holdings table
(`Ticker`, `Units`, `Purchase Price`). -/
structure Row where
  ticker : String
  units : Int
  purchasePrice : ℚ
deriving DecidableEq, Repr

/-- From `src/app.py` line 102: `holdings['Current Price'] =
holdings['Ticker'].map(current_prices)` — NaN (`none`) when unpriced. -/
def currentPrice (prices : String → Option ℚ) (r : Row) : Option ℚ :=
  prices r.ticker

/-- From `src/app.py` line 103: `Current Value = Units * Current Price`;
NaN propagates through the product. -/
def currentValue (prices : String → Option ℚ) (r : Row) : Option ℚ :=
  (prices r.ticker).map (fun p => (r.units : ℚ) * p)

/-- From `src/app.py` line 110: `total_current_value =
holdings['Current Value'].sum()` — pandas sums with `skipna=True`, so NaN
entries contribute nothing. -/
def totalCurrentValue (prices : String → Option ℚ) (rows : List Row) : ℚ :=
  (rows.map (fun r => (currentValue prices r).getD 0)).sum

/-- From `src/app.py` line 158: raw market-value weight of a ticker —
`(cur_price * units) if (not np.isnan(cur_price) and units) else 0.0`. -/
def weightRaw (prices : String → Option ℚ) (unitsMap : String → Int)
    (t : String) : ℚ :=
  match prices t with
  | some p => if unitsMap t ≠ 0 then p * (unitsMap t : ℚ) else 0
  | none => 0

/-- From `src/app.py` line 159: `w_total = sum(weights.values()) if
sum(weights.values()) != 0 else 1.0`. -/
def wTotal (prices : String → Option ℚ) (unitsMap : String → Int)
    (cols : List String) : ℚ :=
  if (cols.map (weightRaw prices unitsMap)).sum ≠ 0 then
    (cols.map (weightRaw prices unitsMap)).sum
  else 1

/-- From `src/app.py` lines 160-161: normalized weight
`weights[t] / w_total`. -/
def weight (prices : String → Option ℚ) (unitsMap : String → Int)
    (cols : List String) (t : String) : ℚ :=
  weightRaw prices unitsMap t / wTotal prices unitsMap cols

/-- From `src/app.py` lines 164-169: the portfolio annualized expected
return — `Σ weights[t] * r` over the price columns, a NaN annualized
return treated as 0. -/
def portAnnReturn (prices : String → Option ℚ) (unitsMap : String → Int)
    (annReturns : String → Option ℚ) (cols : List String) : ℚ :=
  (cols.map (fun t =>
    weight prices unitsMap cols t * (annReturns t).getD 0)).sum

/-- The NaN-skipping total equals the total over the priced rows only. -/
lemma totalCurrentValue_filter (prices : String → Option ℚ)
    (rows : List Row) :
    totalCurrentValue prices rows =
      totalCurrentValue prices
        (rows.filter (fun r => (prices r.ticker).isSome)) := by
  induction rows with
  | nil => rfl
  | cons r rest ih =>
    cases hp : prices r.ticker with
    | none =>
      simp only [totalCurrentValue, List.map_cons, List.sum_cons,
        List.filter_cons, currentValue, hp, Option.map_none', Option.getD_none,
        Option.isSome_none, Bool.false_eq_true, if_false, zero_add]
      exact ih
    | some v =>
      simp only [totalCurrentValue, List.map_cons, List.sum_cons,
        List.filter_cons, currentValue, hp, Option.map_some', Option.getD_some,
        Option.isSome_some, if_true]
      exact congrArg (fun x => (r.units : ℚ) * v + x) ih

end App

/-- C1: a SELL consumes units from the open lots in FIFO order — when the
sale covers the oldest lot, that lot is consumed in full before any later
lot is touched; when it does not, only the oldest lot shrinks; and in
particular after BUY 10@$10 then BUY 10@$20, a SELL of 15 leaves the
single open lot {units_remaining: 5, price: 20} with total_invested 100. -/
theorem claim_C1 :
    (∀ (lot : Ledger.Lot) (rest : List Ledger.Lot) (r : Int),
        0 < r → lot.unitsRemaining ≤ r →
        Ledger.consumeLots (lot :: rest) r =
          { lot with unitsRemaining := 0 } ::
            Ledger.consumeLots rest (r - lot.unitsRemaining)) ∧
    (∀ (lot : Ledger.Lot) (rest : List Ledger.Lot) (r : Int),
        0 < r → r < lot.unitsRemaining →
        Ledger.consumeLots (lot :: rest) r =
          { lot with unitsRemaining := lot.unitsRemaining - r } :: rest) ∧
    (Ledger.openLots Ledger.fifoLog "A" = [⟨5, 20⟩] ∧
      Ledger.totalInvested Ledger.fifoLog "A" = 100) := by
  refine ⟨?_, ?_, ?_, ?_⟩
  · intro lot rest r h0 h1
    rw [Ledger.consumeLots, if_neg (not_le.mpr h0)]
    dsimp only
    rw [if_pos h1]
    simp
  · intro lot rest r h0 h1
    rw [Ledger.consumeLots, if_neg (not_le.mpr h0)]
    dsimp only
    rw [if_neg (not_le.mpr h1)]
    simp [Ledger.consumeLots_zero]
  · norm_num [Ledger.fifoLog, Ledger.record, Ledger.heldUnits, Ledger.openLots,
      Ledger.txsFor, Ledger.applyTx, Ledger.consumeLots]
  · norm_num [Ledger.totalInvested, Ledger.fifoLog, Ledger.record,
      Ledger.heldUnits, Ledger.openLots, Ledger.txsFor, Ledger.applyTx,
      Ledger.consumeLots]

/-- Witness for C1 at a concrete input: selling 15 from lots
[10@$10, 10@$20] consumes the oldest lot in full first. -/
theorem claim_C1_witness :
    Ledger.consumeLots [⟨10, 10⟩, ⟨10, 20⟩] 15 =
      { (⟨10, 10⟩ : Ledger.Lot) with unitsRemaining := 0 } ::
        Ledger.consumeLots [⟨10, 20⟩] (15 - 10) :=
  claim_C1.1 ⟨10, 10⟩ [⟨10, 20⟩] 15 (by decide) (by decide)

/-- C2: a SELL whose units exceed the currently held units is rejected
with `InsufficientUnits`, the log is unchanged, and a snapshot taken
afterwards equals the snapshot taken before. -/
theorem claim_C2 (log : List Ledger.Transaction) (tx : Ledger.Transaction)
    (oracle : String → Option ℚ) (hk : tx.kind = Ledger.TxKind.SELL)
    (hu : 0 < tx.units) (hp : 0 < tx.pricePerUnit)
    (hover : Ledger.heldUnits log tx.symbol < tx.units) :
    Ledger.record log tx = (some Ledger.LedgerError.InsufficientUnits, log) ∧
    Ledger.snapshot (Ledger.record log tx).2 oracle =
      Ledger.snapshot log oracle := by
  have hrec : Ledger.record log tx =
      (some Ledger.LedgerError.InsufficientUnits, log) := by
    rw [Ledger.record, if_neg (by push_neg; exact ⟨hu, hp⟩)]
    rw [hk]
    dsimp only
    rw [if_pos hover]
  exact ⟨hrec, by rw [hrec]⟩

/-- Witness for C2: selling 5 units of an unheld symbol from the empty
ledger is rejected with `InsufficientUnits` and the snapshot is
unchanged. -/
theorem claim_C2_witness :
    Ledger.record [] ⟨"A", Ledger.TxKind.SELL, 5, 10⟩ =
      (some Ledger.LedgerError.InsufficientUnits, []) ∧
    Ledger.snapshot (Ledger.record [] ⟨"A", Ledger.TxKind.SELL, 5, 10⟩).2
        (fun _ => none) =
      Ledger.snapshot [] (fun _ => none) :=
  claim_C2 [] ⟨"A", Ledger.TxKind.SELL, 5, 10⟩ (fun _ => none) rfl
    (by decide) (by decide)
    (by simp [Ledger.heldUnits, Ledger.openLots, Ledger.txsFor])

/-- C3: in every reachable ledger state each lot's remainder is
non-negative, the held unit count is the sum of the lot remainders, and
the total invested amount is the sum of remainder-times-price over the
open lots and is never negative. -/
theorem claim_C3 (log : List Ledger.Transaction) (h : Ledger.Reachable log)
    (sym : String) :
    (∀ l ∈ Ledger.openLots log sym, 0 ≤ l.unitsRemaining) ∧
    Ledger.heldUnits log sym =
      ((Ledger.openLots log sym).map (fun l => l.unitsRemaining)).sum ∧
    Ledger.totalInvested log sym =
      ((Ledger.openLots log sym).map
        (fun l => (l.unitsRemaining : ℚ) * l.pricePerUnit)).sum ∧
    0 ≤ Ledger.totalInvested log sym :=
  ⟨fun l hl => (Ledger.reachable_good log h sym l hl).1, rfl, rfl,
    Ledger.totalInvested_nonneg log h sym⟩

/-- Witness for C3 at the empty (reachable) ledger state. -/
theorem claim_C3_witness :
    (∀ l ∈ Ledger.openLots [] "A", 0 ≤ l.unitsRemaining) ∧
    Ledger.heldUnits [] "A" =
      ((Ledger.openLots [] "A").map (fun l => l.unitsRemaining)).sum ∧
    Ledger.totalInvested [] "A" =
      ((Ledger.openLots [] "A").map
        (fun l => (l.unitsRemaining : ℚ) * l.pricePerUnit)).sum ∧
    0 ≤ Ledger.totalInvested [] "A" :=
  claim_C3 [] Ledger.Reachable.nil "A"

/-- C4: average cost is total_invested / units when units are positive and
0 when units are zero; after BUY 10@$10 then SELL 10@$10 the holding has
zero units, zero average cost and zero total invested. -/
theorem claim_C4 :
    (∀ (log : List Ledger.Transaction) (sym : String),
        Ledger.heldUnits log sym = 0 → Ledger.averageCost log sym = 0) ∧
    (∀ (log : List Ledger.Transaction) (sym : String),
        0 < Ledger.heldUnits log sym →
        Ledger.averageCost log sym =
          Ledger.totalInvested log sym / (Ledger.heldUnits log sym : ℚ)) ∧
    (Ledger.heldUnits Ledger.liqLog "B" = 0 ∧
      Ledger.averageCost Ledger.liqLog "B" = 0 ∧
      Ledger.totalInvested Ledger.liqLog "B" = 0) := by
  refine ⟨?_, ?_, ?_, ?_, ?_⟩
  · intro log sym h
    simp [Ledger.averageCost, h]
  · intro log sym h
    rw [Ledger.averageCost, if_pos h]
  · norm_num [Ledger.liqLog, Ledger.record, Ledger.heldUnits, Ledger.openLots,
      Ledger.txsFor, Ledger.applyTx, Ledger.consumeLots]
  · norm_num [Ledger.averageCost, Ledger.liqLog, Ledger.record,
      Ledger.heldUnits, Ledger.openLots, Ledger.txsFor, Ledger.applyTx,
      Ledger.consumeLots]
  · norm_num [Ledger.totalInvested, Ledger.liqLog, Ledger.record,
      Ledger.heldUnits, Ledger.openLots, Ledger.txsFor, Ledger.applyTx,
      Ledger.consumeLots]

/-- Witness for C4: the empty ledger holds zero units of "A", so the
average cost is 0. -/
theorem claim_C4_witness : Ledger.averageCost [] "A" = 0 :=
  claim_C4.1 [] "A" rfl

/-- C5: a transaction with non-positive units or non-positive price is
rejected with `InvalidTransaction` and the log is returned unchanged. -/
theorem claim_C5 (log : List Ledger.Transaction) (tx : Ledger.Transaction)
    (h : tx.units ≤ 0 ∨ tx.pricePerUnit ≤ 0) :
    Ledger.record log tx = (some Ledger.LedgerError.InvalidTransaction, log) := by
  rw [Ledger.record, if_pos h]

/-- Witness for C5: a BUY of 0 units is rejected with
`InvalidTransaction`. -/
theorem claim_C5_witness :
    Ledger.record [] ⟨"A", Ledger.TxKind.BUY, 0, 10⟩ =
      (some Ledger.LedgerError.InvalidTransaction, []) :=
  claim_C5 [] ⟨"A", Ledger.TxKind.BUY, 0, 10⟩ (Or.inl (by decide))

/-- C7: for a BUY-only log each symbol holds the sum of the bought units,
has total_invested equal to the sum of units-times-price over its BUYs,
and average_cost equal to total_invested / units. -/
theorem claim_C7 (log : List Ledger.Transaction) (sym : String)
    (hb : ∀ tx ∈ log, tx.kind = Ledger.TxKind.BUY)
    (hu : ∀ tx ∈ log, 0 < tx.units) :
    Ledger.heldUnits log sym =
      ((Ledger.txsFor log sym).map (fun tx => tx.units)).sum ∧
    Ledger.totalInvested log sym =
      ((Ledger.txsFor log sym).map
        (fun tx => (tx.units : ℚ) * tx.pricePerUnit)).sum ∧
    Ledger.averageCost log sym =
      Ledger.totalInvested log sym / (Ledger.heldUnits log sym : ℚ) := by
  have hol := Ledger.openLots_buys log sym hb
  refine ⟨?_, ?_, ?_⟩
  · rw [Ledger.heldUnits, hol, List.map_map]
    rfl
  · rw [Ledger.totalInvested, hol, List.map_map]
    rfl
  · by_cases h : 0 < Ledger.heldUnits log sym
    · rw [Ledger.averageCost, if_pos h]
    · have hnn : 0 ≤ Ledger.heldUnits log sym := by
        rw [Ledger.heldUnits, hol, List.map_map]
        apply List.sum_nonneg
        intro x hx
        obtain ⟨tx, htx, hxe⟩ := List.mem_map.mp hx
        have := hu tx (List.mem_filter.mp htx).1
        subst hxe
        exact le_of_lt this
      have h0 : Ledger.heldUnits log sym = 0 := le_antisymm (not_lt.mp h) hnn
      rw [Ledger.averageCost, if_neg h, h0]
      simp

/-- Witness for C7 at the empty (BUY-only) log. -/
theorem claim_C7_witness :
    Ledger.heldUnits [] "A" =
      ((Ledger.txsFor [] "A").map (fun tx => tx.units)).sum ∧
    Ledger.totalInvested [] "A" =
      ((Ledger.txsFor [] "A").map
        (fun tx => (tx.units : ℚ) * tx.pricePerUnit)).sum ∧
    Ledger.averageCost [] "A" =
      Ledger.totalInvested [] "A" / (Ledger.heldUnits [] "A" : ℚ) :=
  claim_C7 [] "A" (by simp) (by simp)

/-- C8: snapshot does not mutate the ledger state, and two snapshots with
no intervening record yield identical results. -/
theorem claim_C8 (log : List Ledger.Transaction) (oracle : String → Option ℚ) :
    (Ledger.snapshotS log oracle).2 = log ∧
    (Ledger.snapshotS ((Ledger.snapshotS log oracle).2) oracle).1 =
      (Ledger.snapshotS log oracle).1 :=
  ⟨rfl, rfl⟩

/-- C6: when the oracle fails for row a but succeeds for row b, the
holdings table is still built in full: a's current price is unknown
(NaN), a's current value is NaN (not zero), b's current value is
computed, and the total current value equals the total over the priced
rows only. -/
theorem claim_C6 (prices : String → Option ℚ) (rows : List App.Row)
    (a b : App.Row) (pB : ℚ) (ha : a ∈ rows) (hb : b ∈ rows)
    (hpa : prices a.ticker = none) (hpb : prices b.ticker = some pB) :
    App.currentPrice prices a = none ∧
    App.currentValue prices a = none ∧
    App.currentValue prices b = some ((b.units : ℚ) * pB) ∧
    App.totalCurrentValue prices rows =
      App.totalCurrentValue prices
        (rows.filter (fun r => (prices r.ticker).isSome)) := by
  refine ⟨hpa, ?_, ?_, App.totalCurrentValue_filter prices rows⟩
  · rw [App.currentValue, hpa]
    rfl
  · rw [App.currentValue, hpb]
    rfl

/-- Witness for C6: two rows, "A" unpriced and "B" priced at 4. -/
theorem claim_C6_witness :
    App.currentPrice (fun s => if s = "B" then some 4 else none)
      ⟨"A", 1, 1⟩ = none ∧
    App.currentValue (fun s => if s = "B" then some 4 else none)
      ⟨"A", 1, 1⟩ = none ∧
    App.currentValue (fun s => if s = "B" then some 4 else none)
      ⟨"B", 2, 3⟩ = some (((⟨"B", 2, 3⟩ : App.Row).units : ℚ) * 4) ∧
    App.totalCurrentValue (fun s => if s = "B" then some 4 else none)
      [⟨"A", 1, 1⟩, ⟨"B", 2, 3⟩] =
      App.totalCurrentValue (fun s => if s = "B" then some 4 else none)
        ([⟨"A", 1, 1⟩, ⟨"B", 2, 3⟩].filter
          (fun r => ((fun s => if s = "B" then some 4 else none)
            r.ticker).isSome)) :=
  claim_C6 (fun s => if s = "B" then some 4 else none)
    [⟨"A", 1, 1⟩, ⟨"B", 2, 3⟩] ⟨"A", 1, 1⟩ ⟨"B", 2, 3⟩ 4
    (by simp) (by simp) (by simp) (by simp)

/-- C9: fetch_current_prices returns one entry per requested ticker and
never propagates an exception — a failure of both the primary history
lookup and the info fallback, or an empty history with a failing
fallback, yields NaN for that ticker. -/
theorem claim_C9 (history : String → Except Unit (List ℚ))
    (info : String → Except Unit (Option ℚ)) (tickers : List String) :
    (App.fetchCurrentPrices history info tickers).map Prod.fst = tickers ∧
    (∀ t ∈ tickers,
      (t, App.lookupPrice history info t) ∈
        App.fetchCurrentPrices history info tickers) ∧
    (∀ t, history t = Except.error () → info t = Except.error () →
      App.lookupPrice history info t = none) ∧
    (∀ t closes, history t = Except.ok closes → closes.getLast? = none →
      info t = Except.error () → App.lookupPrice history info t = none) := by
  refine ⟨?_, ?_, ?_, ?_⟩
  · rw [App.fetchCurrentPrices, List.map_map]
    exact List.map_id'' (fun x => rfl) tickers
  · intro t ht
    exact List.mem_map_of_mem _ ht
  · intro t h1 h2
    simp [App.lookupPrice, h1, h2]
  · intro t closes h1 h2 h3
    simp [App.lookupPrice, h1, h2, h3]

/-- Witness for C9: a single ticker whose primary and fallback lookups
both raise resolves to NaN. -/
theorem claim_C9_witness :
    App.lookupPrice (fun _ => Except.error ()) (fun _ => Except.error ())
      "A" = none :=
  (claim_C9 (fun _ => Except.error ()) (fun _ => Except.error ())
    ["A"]).2.2.1 "A" rfl rfl

/-- C10: the projection-weight computation is total — if every raw
market-value weight is zero the divisor is 1, all weights stay 0 and the
portfolio annualized return is 0; if the raw weights have non-zero sum,
the normalized weights sum to 1. -/
theorem claim_C10 (prices : String → Option ℚ) (unitsMap : String → Int)
    (annReturns : String → Option ℚ) (cols : List String) :
    ((∀ t ∈ cols, App.weightRaw prices unitsMap t = 0) →
      App.wTotal prices unitsMap cols = 1 ∧
      (∀ t ∈ cols, App.weight prices unitsMap cols t = 0) ∧
      App.portAnnReturn prices unitsMap annReturns cols = 0) ∧
    ((cols.map (App.weightRaw prices unitsMap)).sum ≠ 0 →
      (cols.map (App.weight prices unitsMap cols)).sum = 1) := by
  constructor
  · intro hz
    have hsum : (cols.map (App.weightRaw prices unitsMap)).sum = 0 := by
      apply List.sum_eq_zero
      intro x hx
      obtain ⟨t, ht, hxe⟩ := List.mem_map.mp hx
      exact hxe ▸ hz t ht
    have hw : App.wTotal prices unitsMap cols = 1 := by
      rw [App.wTotal]
      simp [hsum]
    refine ⟨hw, ?_, ?_⟩
    · intro t ht
      rw [App.weight, hz t ht, hw]
      norm_num
    · rw [App.portAnnReturn]
      apply List.sum_eq_zero
      intro x hx
      obtain ⟨t, ht, hxe⟩ := List.mem_map.mp hx
      rw [← hxe, App.weight, hz t ht, hw]
      norm_num
  · intro hs
    have hw : App.wTotal prices unitsMap cols =
        (cols.map (App.weightRaw prices unitsMap)).sum := by
      rw [App.wTotal, if_pos hs]
    have hstep : (cols.map (App.weight prices unitsMap cols)).sum =
        (cols.map (App.weightRaw prices unitsMap)).sum *
          (App.wTotal prices unitsMap cols)⁻¹ := by
      rw [← List.sum_map_mul_right]
      apply congrArg List.sum
      apply List.map_congr_left
      intro t _
      rw [App.weight, div_eq_mul_inv]
    rw [hstep, hw, mul_inv_cancel₀ hs]

/-- Witness for C10: one priced column with one unit gives a normalized
weight sum of 1. -/
theorem claim_C10_witness :
    (["A"].map (App.weight (fun _ => some 2) (fun _ => 1) ["A"])).sum = 1 :=
  (claim_C10 (fun _ => some 2) (fun _ => 1) (fun _ => none) ["A"]).2
    (by simp [App.weightRaw])
